import Mathlib

/-!
Verification of the one-time-cipher codec in `otc.py` (PeteDiMarco/misc-tools).

The Python program is shallowly embedded:
* a Python byte is `Fin 256`;
* `EncryptMap.TrackedList` (a list with a cursor) is the structure `TrackedList`,
  whose `next` mirrors `__next__` (the Python test `self.index > len(self.list)-1`
  is taken over `Int`, exactly as Python evaluates it);
* the dictionary `EncryptMap.map` is a function `Fin 256 → Option TrackedList`,
  dictionary assignment being `Function.update`;
* `random.shuffle` is Fisher–Yates driven by an arbitrary supply of random
  numbers `rand : Nat → Nat` (Python draws `j` uniformly from `0..i`; here
  `j = rand i % (i+1)`, so every possible draw corresponds to some `rand`);
* exceptions are `Except` values: `MapError("Gaps in map file.")` is
  `MapErr.gaps`, `MapError("Map file not complex enough.")` is
  `MapErr.mapTooSmall`, an uncaught Python `KeyError` is `MapErr.keyError`
  and an uncaught `StopIteration` is `MapErr.stopIter`;
* the in-memory decrypt loop writes the slice `map_bytes[index:index+1]`
  (which is empty when `index` is out of range) and the streaming decrypt
  loop writes the result of `seek`/`read(1)` (empty at EOF); both are total.
-/

set_option maxRecDepth 8192

abbrev Byte := Fin 256

/-- `EncryptMap.TrackedList`: "A list with a built-in index to the next
available element." -/
structure TrackedList where
  index : Nat
  list : List Nat
deriving Repr, DecidableEq

namespace TrackedList

/-- `TrackedList.append`. -/
def append (t : TrackedList) (elt : Nat) : TrackedList :=
  { t with list := t.list ++ [elt] }

/-- `TrackedList.reset`: `self.index = 0`. -/
def reset (t : TrackedList) : TrackedList :=
  { t with index := 0 }

/-- `TrackedList.__next__`: `StopIteration` (here `none`) when
`self.index > len(self.list) - 1`, evaluated over the integers as in Python;
otherwise return `self.list[self.index]` and advance the cursor. -/
def next (t : TrackedList) : Option (Nat × TrackedList) :=
  if (t.index : Int) > (t.list.length : Int) - 1 then
    none
  else
    some (t.list.getD t.index 0, { t with index := t.index + 1 })

end TrackedList

/-- The state of `EncryptMap.map`: a Python dict from byte values to
`TrackedList`s. -/
abbrev MapState := Byte → Option TrackedList

/-- The errors the program can signal while indexing/encoding. -/
inductive MapErr where
  | gaps          -- MapError("Gaps in map file.")
  | mapTooSmall   -- MapError("Map file not complex enough.")
  | keyError      -- an uncaught Python KeyError (missing dict key)
  | stopIter      -- an uncaught Python StopIteration
deriving Repr, DecidableEq

/-- One iteration of the scan in `EncryptMap.__init__`:
`if byte in self.map: self.map[byte].append(index)
 else: self.map[byte] = EncryptMap.TrackedList(index)`. -/
def addByte (m : MapState) (b : Byte) (idx : Nat) : MapState :=
  match m b with
  | some t => Function.update m b (some (t.append idx))
  | none => Function.update m b (some ⟨0, [idx]⟩)

/-- The scan loop of `EncryptMap.__init__`, starting at position `idx`. -/
def buildFrom (m : MapState) : List Byte → Nat → MapState
  | [], _ => m
  | b :: rest, idx => buildFrom (addByte m b idx) rest (idx + 1)

/-- The full scan of `EncryptMap.__init__` over the map file's bytes. -/
def buildMap (content : List Byte) : MapState :=
  buildFrom (fun _ => none) content 0

/-- `len(self.map)`: the number of keys present in the dict. -/
def mapSize (m : MapState) : Nat :=
  (Finset.univ.filter (fun b : Byte => (m b).isSome)).card

/-- Swap the entries at indices `i` and `j`
(`x[i], x[j] = x[j], x[i]`; unchanged when an index is out of range). -/
def listSwap (l : List Nat) (i j : Nat) : List Nat :=
  match l.get? i, l.get? j with
  | some a, some b => (l.set i b).set j a
  | _, _ => l

/-- The Fisher–Yates loop of Python's `random.shuffle`:
`for i in reversed(range(1, len(x))): j = randbelow(i+1); swap x[i], x[j]`,
with the draws supplied by `rand`. -/
def fyAux (rand : Nat → Nat) : Nat → List Nat → List Nat
  | 0, l => l
  | i + 1, l => fyAux rand i (listSwap l (i + 1) (rand (i + 1) % (i + 2)))

/-- `random.shuffle` on one list, driven by the random supply `rand`. -/
def shuffleWith (rand : Nat → Nat) (l : List Nat) : List Nat :=
  fyAux rand (l.length - 1) l

/-- `EncryptMap.shuffle`: shuffle every key's position list in place. -/
def shuffleMap (rand : Byte → Nat → Nat) (m : MapState) : MapState :=
  fun b => (m b).map (fun t => { t with list := shuffleWith (rand b) t.list })

/-- `EncryptMap.__init__`: scan the map bytes, `verify()` (fail with
`Gaps` unless all 256 keys are present — in which case `shuffle()` is never
reached), then `shuffle()`. -/
def initMap (rand : Byte → Nat → Nat) (content : List Byte) :
    Except MapErr MapState :=
  let m := buildMap content
  if mapSize m = 256 then .ok (shuffleMap rand m) else .error .gaps

/-- `EncryptMap.encode`: `next(self.map[byte])`; a missing key raises
`KeyError` (which `except IndexError` does not catch); on `StopIteration`,
fail with `MapTooSmall` when strict, otherwise `reset()` then `next(...)`
(whose own `StopIteration`, possible only for an empty list, would escape
uncaught). -/
def encode (strict : Bool) (m : MapState) (b : Byte) :
    Except MapErr (Nat × MapState) :=
  match m b with
  | none => .error .keyError
  | some t =>
    match t.next with
    | some (p, t') => .ok (p, Function.update m b (some t'))
    | none =>
      if strict then .error .mapTooSmall
      else
        match t.reset.next with
        | some (p, t') => .ok (p, Function.update m b (some t'))
        | none => .error .stopIter

/-- The in-memory encrypt loop, as a pure fold: encode each plaintext byte
in order, stopping at the first `MapError`. -/
def encodeList (strict : Bool) (m : MapState) :
    List Byte → Except MapErr (List Nat × MapState)
  | [] => .ok ([], m)
  | b :: rest =>
    match encode strict m b with
    | .ok (p, m') =>
      match encodeList strict m' rest with
      | .ok (ps, m'') => .ok (p :: ps, m'')
      | .error e => .error e
    | .error e => .error e

/-- The in-memory encrypt loop of `__main__`, observing the written output:
each successful `encode` writes one line; on `MapError` the program prints an
error and calls `exit(1)`, leaving the lines already written in the output
file.  Returns the written lines and whether the run completed. -/
def runEncrypt (strict : Bool) (m : MapState) : List Byte → List Nat × Bool
  | [] => ([], true)
  | b :: rest =>
    match encode strict m b with
    | .ok (p, m') =>
      let r := runEncrypt strict m' rest
      (p :: r.1, r.2)
    | .error _ => ([], false)

/-- One step of the in-memory decrypt loop: `map_bytes[index : index + 1]`,
a Python slice — one byte when `index` is in range, empty otherwise. -/
def decodeMem (content : List Byte) (pos : Nat) : List Byte :=
  (content.drop pos).take 1

/-- One step of the streaming decrypt loop: `map_fp.seek(int(line));
map_fp.read(1)` — one byte when the position is in range, empty at EOF. -/
def decodeStream (content : List Byte) (pos : Nat) : List Byte :=
  match content.get? pos with
  | some b => [b]
  | none => []

/-- The in-memory decrypt loop: write `map_bytes[index:index+1]` for each
ciphertext line, in order.  Total: no error path exists in the code. -/
def runDecryptMem (content : List Byte) : List Nat → List Byte
  | [] => []
  | p :: rest => decodeMem content p ++ runDecryptMem content rest

/-- The streaming decrypt loop: seek/read one byte per ciphertext line. -/
def runDecryptStream (content : List Byte) : List Nat → List Byte
  | [] => []
  | p :: rest => decodeStream content p ++ runDecryptStream content rest

/-- The first scan of `EncryptMap.find_next_byte`: read forward from `pos`
until `target` is found (returning its position) or EOF (returning `none`). -/
def findFrom (map : List Byte) (target : Byte) (pos : Nat) : Option Nat :=
  match h : map.get? pos with
  | none => none
  | some b => if b = target then some pos else findFrom map target (pos + 1)
termination_by map.length - pos
decreasing_by
  have : pos < map.length := (List.get?_eq_some.mp h).1
  omega

/-- The wrap-around scan of `EncryptMap.find_next_byte`: after `seek(0)`,
scan while bytes remain, `new_index < index` and the byte is not the target;
then succeed iff the byte under the cursor is the target. -/
def wrapScan (map : List Byte) (target : Byte) (index : Nat) (pos : Nat) :
    Except MapErr Nat :=
  match map.get? pos with
  | none => .error .gaps
  | some b =>
    if b = target then .ok pos
    else if h : pos < index then wrapScan map target index (pos + 1)
    else .error .gaps
termination_by index - pos

/-- `EncryptMap.find_next_byte`, with the stream positioned at `index`:
scan forward from `index`; at EOF wrap to position 0 and scan again, but
only up to `index` — a single full wrap, never more. -/
def find_next_byte (map : List Byte) (target : Byte) (index : Nat) :
    Except MapErr Nat :=
  match findFrom map target index with
  | some p => .ok p
  | none => wrapScan map target index 0

/-! ### Positions recorded by the construction scan -/

/-- The positions, starting from offset `idx`, at which `b` occurs in the
remaining content — what the scan loop appends for key `b`. -/
def offPositions : List Byte → Nat → Byte → List Nat
  | [], _, _ => []
  | c :: rest, idx, b =>
    (if c = b then [idx] else []) ++ offPositions rest (idx + 1) b

/-- All positions of `b` in the content. -/
def positions (content : List Byte) (b : Byte) : List Nat :=
  offPositions content 0 b

theorem length_offPositions (content : List Byte) :
    ∀ (idx : Nat) (b : Byte),
      (offPositions content idx b).length = content.count b := by
  induction content with
  | nil => intro idx b; simp [offPositions]
  | cons c rest ih =>
    intro idx b
    by_cases h : c = b <;>
      simp [offPositions, h, ih, List.count_cons, eq_comm]

theorem mem_offPositions (content : List Byte) :
    ∀ (idx p : Nat) (b : Byte),
      p ∈ offPositions content idx b ↔
        idx ≤ p ∧ content.get? (p - idx) = some b := by
  induction content with
  | nil => intro idx p b; simp [offPositions]
  | cons c rest ih =>
    intro idx p b
    simp only [offPositions, List.mem_append, ih]
    constructor
    · rintro (hl | ⟨hle, hget⟩)
      · have hc : c = b ∧ p = idx := by
          by_cases h : c = b <;> simp [h] at hl <;> simp [h, hl]
        refine ⟨le_of_eq hc.2.symm, ?_⟩
        rw [hc.2]
        simp [hc.1]
      · refine ⟨by omega, ?_⟩
        have : p - idx = (p - (idx + 1)) + 1 := by omega
        rw [this]
        simpa using hget
    · rintro ⟨hle, hget⟩
      rcases Nat.eq_or_lt_of_le hle with heq | hlt
      · left
        rw [← heq] at hget
        simp at hget
        simp [hget]
        omega
      · right
        refine ⟨by omega, ?_⟩
        have : p - idx = (p - (idx + 1)) + 1 := by omega
        rw [this] at hget
        simpa using hget

theorem le_of_mem_offPositions {content : List Byte} {idx p : Nat} {b : Byte}
    (h : p ∈ offPositions content idx b) : idx ≤ p :=
  ((mem_offPositions content idx p b).mp h).1

theorem nodup_offPositions (content : List Byte) :
    ∀ (idx : Nat) (b : Byte), (offPositions content idx b).Nodup := by
  induction content with
  | nil => intro idx b; simp [offPositions]
  | cons c rest ih =>
    intro idx b
    by_cases h : c = b
    · simp only [offPositions, h, if_pos rfl]
      rw [List.nodup_append]
      refine ⟨List.nodup_singleton idx, ih (idx + 1) b, ?_⟩
      intro x hx hy
      have := le_of_mem_offPositions hy
      simp at hx
      omega
    · simpa [offPositions, h] using ih (idx + 1) b

theorem offPositions_eq_nil_iff (content : List Byte) (idx : Nat) (b : Byte) :
    offPositions content idx b = [] ↔ b ∉ content := by
  rw [← List.length_eq_zero, length_offPositions, List.count_eq_zero]

theorem mem_positions (content : List Byte) (p : Nat) (b : Byte) :
    p ∈ positions content b ↔ content.get? p = some b := by
  rw [positions, mem_offPositions]
  simp

/-! ### Characterizing the construction scan -/

theorem addByte_self (m : MapState) (b : Byte) (idx : Nat) :
    addByte m b idx b =
      match m b with
      | some t => some ⟨t.index, t.list ++ [idx]⟩
      | none => some ⟨0, [idx]⟩ := by
  unfold addByte
  cases m b <;> simp [Function.update, TrackedList.append]

theorem addByte_other (m : MapState) {b c : Byte} (idx : Nat) (h : b ≠ c) :
    addByte m c idx b = m b := by
  unfold addByte
  cases m c <;> simp [Function.update, h]

theorem buildFrom_lookup (content : List Byte) :
    ∀ (m : MapState) (idx : Nat) (b : Byte),
      buildFrom m content idx b =
        match m b with
        | some t => some ⟨t.index, t.list ++ offPositions content idx b⟩
        | none =>
          if b ∈ content then some ⟨0, offPositions content idx b⟩
          else none := by
  induction content with
  | nil =>
    intro m idx b
    cases hm : m b <;> simp [buildFrom, offPositions, hm]
  | cons c rest ih =>
    intro m idx b
    show buildFrom (addByte m c idx) rest (idx + 1) b = _
    rw [ih]
    by_cases hbc : b = c
    · subst hbc
      rw [addByte_self]
      cases hm : m b with
      | some t =>
        simp [offPositions, List.append_assoc]
      | none =>
        simp [offPositions]
    · rw [addByte_other m idx hbc]
      cases hm : m b with
      | some t =>
        simp [offPositions, hbc, Ne.symm hbc]
      | none =>
        simp [offPositions, hbc, Ne.symm hbc]

theorem buildMap_lookup (content : List Byte) (b : Byte) :
    buildMap content b =
      if b ∈ content then some ⟨0, positions content b⟩ else none := by
  rw [buildMap, buildFrom_lookup]
  rfl

theorem buildMap_lookup_of_mem {content : List Byte} {b : Byte}
    (h : b ∈ content) : buildMap content b = some ⟨0, positions content b⟩ := by
  rw [buildMap_lookup, if_pos h]

/-! ### The shuffle is a permutation -/

theorem count_set_add (l : List Nat) :
    ∀ (i a b x : Nat), l.get? i = some a →
      (l.set i b).count x + (if a = x then 1 else 0) =
        l.count x + (if b = x then 1 else 0) := by
  induction l with
  | nil => intro i a b x h; simp at h
  | cons c t ih =>
    intro i a b x h
    cases i with
    | zero =>
      simp at h
      subst h
      simp only [List.set_cons_zero, List.count_cons, beq_iff_eq]
      split_ifs <;> omega
    | succ i =>
      simp only [List.get?_cons_succ] at h
      simp only [List.set_cons_succ, List.count_cons, beq_iff_eq]
      have := ih i a b x h
      split_ifs at this ⊢ <;> omega

theorem listSwap_perm (l : List Nat) (i j : Nat) : (listSwap l i j).Perm l := by
  unfold listSwap
  cases hi : l.get? i with
  | none => exact List.Perm.refl l
  | some a =>
    cases hj : l.get? j with
    | none => exact List.Perm.refl l
    | some b =>
      dsimp only
      rw [List.perm_iff_count]
      intro x
      by_cases hij : i = j
      · subst hij
        rw [hi] at hj
        cases hj
        rw [List.set_set]
        have h1 := count_set_add l i a a x hi
        omega
      · have h1 := count_set_add l i a b x hi
        have h2 : (l.set i b).get? j = some b := by
          rw [List.get?_set_ne b l hij, hj]
        have h3 := count_set_add (l.set i b) j b a x h2
        omega

theorem fyAux_perm (rand : Nat → Nat) :
    ∀ (n : Nat) (l : List Nat), (fyAux rand n l).Perm l := by
  intro n
  induction n with
  | zero => intro l; exact List.Perm.refl l
  | succ i ih =>
    intro l
    exact (ih _).trans (listSwap_perm l (i + 1) (rand (i + 1) % (i + 2)))

theorem shuffleWith_perm (rand : Nat → Nat) (l : List Nat) :
    (shuffleWith rand l).Perm l :=
  fyAux_perm rand (l.length - 1) l

theorem shuffleMap_lookup (rand : Byte → Nat → Nat) (m : MapState) (b : Byte) :
    shuffleMap rand m b =
      (m b).map (fun t => ⟨t.index, shuffleWith (rand b) t.list⟩) := rfl

theorem shuffleMap_isSome (rand : Byte → Nat → Nat) (m : MapState) (b : Byte) :
    (shuffleMap rand m b).isSome = (m b).isSome := by
  rw [shuffleMap_lookup]
  cases m b <;> simp

/-! ### `verify` and `initMap` -/

theorem isSome_buildMap (content : List Byte) (b : Byte) :
    (buildMap content b).isSome = true ↔ b ∈ content := by
  rw [buildMap_lookup]
  by_cases h : b ∈ content <;> simp [h]

theorem mapSize_buildMap_eq_iff (content : List Byte) :
    mapSize (buildMap content) = 256 ↔ ∀ b : Byte, b ∈ content := by
  unfold mapSize
  constructor
  · intro h b
    have hcard : (Finset.univ.filter
        (fun b : Byte => (buildMap content b).isSome)).card = Fintype.card Byte := by
      rw [h, Fintype.card_fin]
    have := (Finset.card_eq_iff_eq_univ _).mp hcard
    have hb : b ∈ Finset.univ.filter
        (fun b : Byte => (buildMap content b).isSome) := by
      rw [this]; exact Finset.mem_univ b
    rw [← isSome_buildMap]
    exact (Finset.mem_filter.mp hb).2
  · intro h
    have : Finset.univ.filter (fun b : Byte => (buildMap content b).isSome) =
        Finset.univ := by
      apply Finset.eq_univ_of_forall
      intro b
      rw [Finset.mem_filter]
      exact ⟨Finset.mem_univ b, (isSome_buildMap content b).mpr (h b)⟩
    rw [this, Finset.card_univ, Fintype.card_fin]

theorem initMap_ok_of_all {content : List Byte} (rand : Byte → Nat → Nat)
    (h : ∀ b : Byte, b ∈ content) :
    initMap rand content = .ok (shuffleMap rand (buildMap content)) := by
  unfold initMap
  rw [if_pos ((mapSize_buildMap_eq_iff content).mpr h)]

theorem initMap_gaps_of_missing {content : List Byte} (rand : Byte → Nat → Nat)
    (h : ∃ b : Byte, b ∉ content) :
    initMap rand content = .error .gaps := by
  unfold initMap
  rw [if_neg]
  intro hsize
  obtain ⟨b, hb⟩ := h
  exact hb ((mapSize_buildMap_eq_iff content).mp hsize b)

theorem initMap_ok_inv {content : List Byte} {rand : Byte → Nat → Nat}
    {m : MapState} (h : initMap rand content = .ok m) :
    m = shuffleMap rand (buildMap content) ∧ ∀ b : Byte, b ∈ content := by
  unfold initMap at h
  by_cases hs : mapSize (buildMap content) = 256
  · rw [if_pos hs] at h
    cases h
    exact ⟨rfl, (mapSize_buildMap_eq_iff content).mp hs⟩
  · rw [if_neg hs] at h
    cases h

/-! ### Characterizing `TrackedList.next` and `encode` -/

theorem TrackedList.next_eq_some {t : TrackedList}
    (h : t.index < t.list.length) :
    t.next = some (t.list.getD t.index 0, ⟨t.index + 1, t.list⟩) := by
  unfold TrackedList.next
  rw [if_neg (by omega)]

theorem TrackedList.next_eq_none {t : TrackedList}
    (h : t.list.length ≤ t.index) : t.next = none := by
  unfold TrackedList.next
  rw [if_pos (by omega)]

theorem encode_ok_of_lt (strict : Bool) {m : MapState} {b : Byte}
    {t : TrackedList} (h : m b = some t) (hlt : t.index < t.list.length) :
    encode strict m b =
      .ok (t.list.getD t.index 0,
           Function.update m b (some ⟨t.index + 1, t.list⟩)) := by
  simp only [encode, h, TrackedList.next_eq_some hlt]

theorem encode_strict_exhausted {m : MapState} {b : Byte} {t : TrackedList}
    (h : m b = some t) (hge : t.list.length ≤ t.index) :
    encode true m b = .error .mapTooSmall := by
  simp only [encode, h, TrackedList.next_eq_none hge, if_pos]

theorem encode_nonstrict_exhausted {m : MapState} {b : Byte} {t : TrackedList}
    (h : m b = some t) (hge : t.list.length ≤ t.index) (hne : t.list ≠ []) :
    encode false m b =
      .ok (t.list.getD 0 0, Function.update m b (some ⟨1, t.list⟩)) := by
  have hres : (t.reset).next = some (t.list.getD 0 0, ⟨1, t.list⟩) := by
    have : (t.reset).index < (t.reset).list.length := by
      simp [TrackedList.reset, List.length_pos, hne]
    simpa [TrackedList.reset] using TrackedList.next_eq_some this
  simp only [encode, h, TrackedList.next_eq_none hge, hres, Bool.false_eq_true,
    if_false]

theorem encode_keyError {m : MapState} {b : Byte} (h : m b = none)
    (strict : Bool) : encode strict m b = .error .keyError := by
  simp only [encode, h]

theorem encode_true_ok_inv {m : MapState} {b : Byte} {p : Nat} {m' : MapState}
    (h : encode true m b = .ok (p, m')) :
    ∃ t, m b = some t ∧ t.index < t.list.length ∧
      p = t.list.getD t.index 0 ∧
      m' = Function.update m b (some ⟨t.index + 1, t.list⟩) := by
  cases hm : m b with
  | none => rw [encode_keyError hm] at h; cases h
  | some t =>
    by_cases hlt : t.index < t.list.length
    · rw [encode_ok_of_lt true hm hlt] at h
      injection h with h'
      injection h' with h1 h2
      exact ⟨t, rfl, hlt, h1.symm, h2.symm⟩
    · rw [encode_strict_exhausted hm (by omega)] at h
      cases h

/-! ### The round-trip invariant -/

/-- Every key is present and its recorded positions really hold that byte in
the map content. -/
def GoodFor (content : List Byte) (m : MapState) : Prop :=
  ∀ b : Byte, ∃ t, m b = some t ∧ ∀ p ∈ t.list, content.get? p = some b

/-- The number of unused positions left for byte `b`. -/
def availLen (m : MapState) (b : Byte) : Nat :=
  match m b with
  | some t => t.list.length - t.index
  | none => 0

theorem availLen_some {m : MapState} {b : Byte} {t : TrackedList}
    (h : m b = some t) : availLen m b = t.list.length - t.index := by
  unfold availLen
  rw [h]

theorem decodeMem_of_get? {content : List Byte} {p : Nat} {b : Byte}
    (h : content.get? p = some b) : decodeMem content p = [b] := by
  obtain ⟨hlt, hget⟩ := List.get?_eq_some.mp h
  have hg : content[p] = b := hget
  unfold decodeMem
  rw [List.drop_eq_getElem_cons hlt, List.take_succ_cons, List.take_zero, hg]

theorem decodeMem_of_oob {content : List Byte} {p : Nat}
    (h : content.length ≤ p) : decodeMem content p = [] := by
  unfold decodeMem
  rw [List.drop_eq_nil_of_le h]
  rfl

theorem decodeStream_of_get? {content : List Byte} {p : Nat} {b : Byte}
    (h : content.get? p = some b) : decodeStream content p = [b] := by
  unfold decodeStream
  rw [h]

theorem decodeStream_of_oob {content : List Byte} {p : Nat}
    (h : content.length ≤ p) : decodeStream content p = [] := by
  unfold decodeStream
  rw [List.get?_eq_none.mpr h]

theorem goodFor_init {content : List Byte} {rand : Byte → Nat → Nat}
    {m : MapState} (h : initMap rand content = .ok m) :
    GoodFor content m := by
  obtain ⟨hm, hall⟩ := initMap_ok_inv h
  intro b
  subst hm
  rw [shuffleMap_lookup, buildMap_lookup_of_mem (hall b)]
  refine ⟨_, rfl, ?_⟩
  intro p hp
  rw [← mem_positions]
  exact (shuffleWith_perm (rand b) (positions content b)).mem_iff.mp hp

theorem availLen_init {content : List Byte} {rand : Byte → Nat → Nat}
    {m : MapState} (h : initMap rand content = .ok m) (b : Byte) :
    availLen m b = content.count b := by
  obtain ⟨hm, hall⟩ := initMap_ok_inv h
  subst hm
  unfold availLen
  rw [shuffleMap_lookup, buildMap_lookup_of_mem (hall b)]
  simp only [Option.map_some']
  rw [(shuffleWith_perm (rand b) (positions content b)).length_eq]
  rw [positions, length_offPositions]
  omega

theorem encodeList_roundtrip (content : List Byte) :
    ∀ (plain : List Byte) (m : MapState),
      GoodFor content m →
      (∀ b : Byte, plain.count b ≤ availLen m b) →
      ∃ ps m', encodeList true m plain = .ok (ps, m') ∧
        runDecryptMem content ps = plain ∧
        runDecryptStream content ps = plain := by
  intro plain
  induction plain with
  | nil =>
    intro m _ _
    exact ⟨[], m, rfl, rfl, rfl⟩
  | cons b rest ih =>
    intro m hgood hcnt
    obtain ⟨t, hm, hfaith⟩ := hgood b
    have hlt : t.index < t.list.length := by
      have := hcnt b
      rw [List.count_cons_self, availLen_some hm] at this
      omega
    have henc := encode_ok_of_lt true hm hlt
    set p := t.list.getD t.index 0 with hp
    have hpmem : p ∈ t.list := by
      rw [hp, List.getD_eq_getElem?_getD, List.getElem?_eq_getElem hlt]
      exact List.getElem_mem hlt
    have hpb : content.get? p = some b := hfaith p hpmem
    set m1 := Function.update m b (some ⟨t.index + 1, t.list⟩) with hm1
    have hm1b : m1 b = some ⟨t.index + 1, t.list⟩ := by
      rw [hm1, Function.update_same]
    have hm1ne : ∀ b' : Byte, b' ≠ b → m1 b' = m b' := by
      intro b' hb
      rw [hm1, Function.update_noteq hb]
    have hgood1 : GoodFor content m1 := by
      intro b'
      by_cases hb : b' = b
      · subst hb
        exact ⟨⟨t.index + 1, t.list⟩, hm1b, hfaith⟩
      · obtain ⟨t', ht', hf'⟩ := hgood b'
        exact ⟨t', by rw [hm1ne b' hb, ht'], hf'⟩
    have hcnt1 : ∀ b' : Byte, rest.count b' ≤ availLen m1 b' := by
      intro b'
      by_cases hb : b' = b
      · subst hb
        have := hcnt b'
        rw [List.count_cons_self, availLen_some hm] at this
        rw [availLen_some hm1b]
        dsimp only
        omega
      · have := hcnt b'
        rw [List.count_cons_of_ne hb] at this
        unfold availLen
        rw [hm1ne b' hb]
        exact this
    obtain ⟨ps, m', hencs, hdec, hdecs⟩ := ih m1 hgood1 hcnt1
    refine ⟨p :: ps, m', ?_, ?_, ?_⟩
    · show (match encode true m b with
        | .ok (p, m') =>
          match encodeList true m' rest with
          | .ok (ps, m'') => Except.ok (p :: ps, m'')
          | .error e => Except.error e
        | .error e => Except.error e) = _
      rw [henc]
      simp only [← hm1, hencs]
    · show decodeMem content p ++ runDecryptMem content ps = b :: rest
      rw [decodeMem_of_get? hpb, hdec]
      rfl
    · show decodeStream content p ++ runDecryptStream content ps = b :: rest
      rw [decodeStream_of_get? hpb, hdecs]
      rfl

/-! ### Strict mode never reuses a position -/

theorem getD_eq_getElem {l : List Nat} {i : Nat} (h : i < l.length) :
    l.getD i 0 = l[i] := by
  rw [List.getD_eq_getElem?_getD, List.getElem?_eq_getElem h]
  rfl

/-- The positions of one key that the cursor has not consumed yet. -/
def availSeg (o : Option TrackedList) : List Nat :=
  match o with
  | some t => t.list.drop t.index
  | none => []

/-- How many times position `q` is still available, over all 256 keys. -/
def availCount (m : MapState) (q : Nat) : Nat :=
  ∑ b : Byte, (availSeg (m b)).count q

theorem encodeList_cons_ok_inv {strict : Bool} {m : MapState} {b : Byte}
    {rest : List Byte} {ps : List Nat} {m' : MapState}
    (h : encodeList strict m (b :: rest) = .ok (ps, m')) :
    ∃ p m1 ps', encode strict m b = .ok (p, m1) ∧
      encodeList strict m1 rest = .ok (ps', m') ∧ ps = p :: ps' := by
  cases henc : encode strict m b with
  | error e => simp only [encodeList, henc] at h; cases h
  | ok pm =>
    obtain ⟨p, m1⟩ := pm
    cases hrest : encodeList strict m1 rest with
    | error e => simp only [encodeList, henc, hrest] at h; cases h
    | ok psm =>
      obtain ⟨ps', m''⟩ := psm
      simp only [encodeList, henc, hrest, Except.ok.injEq, Prod.mk.injEq] at h
      obtain ⟨h1, h2⟩ := h
      exact ⟨p, m1, ps', rfl, by rw [hrest, h2], h1.symm⟩

theorem encode_true_availCount {m : MapState} {b : Byte} {p : Nat}
    {m' : MapState} (h : encode true m b = .ok (p, m')) (q : Nat) :
    availCount m' q + (if p = q then 1 else 0) = availCount m q := by
  obtain ⟨t, hm, hlt, hp, hm'⟩ := encode_true_ok_inv h
  subst hm'
  unfold availCount
  rw [← Finset.sum_erase_add _ _ (Finset.mem_univ b),
    ← Finset.sum_erase_add _ (fun b' => (availSeg (m b')).count q)
      (Finset.mem_univ b)]
  have hcongr : ∀ x ∈ Finset.univ.erase b,
      (availSeg (Function.update m b (some ⟨t.index + 1, t.list⟩) x)).count q =
        (availSeg (m x)).count q := by
    intro x hx
    rw [Function.update_noteq (Finset.mem_erase.mp hx).1]
  rw [Finset.sum_congr rfl hcongr]
  have hupd : Function.update m b (some ⟨t.index + 1, t.list⟩) b =
      some ⟨t.index + 1, t.list⟩ := Function.update_same _ _ _
  rw [hupd, hm]
  have hseg : availSeg (some t) =
      t.list[t.index] :: availSeg (some ⟨t.index + 1, t.list⟩) := by
    show t.list.drop t.index = t.list[t.index] :: t.list.drop (t.index + 1)
    exact List.drop_eq_getElem_cons hlt
  rw [hseg, List.count_cons]
  have hpq : p = t.list[t.index] := by rw [hp, getD_eq_getElem hlt]
  subst hpq
  simp only [beq_iff_eq]
  omega

theorem encodeList_true_counts {bs : List Byte} :
    ∀ {m : MapState} {ps : List Nat} {m' : MapState},
      encodeList true m bs = .ok (ps, m') →
      ∀ q, ps.count q + availCount m' q = availCount m q := by
  induction bs with
  | nil =>
    intro m ps m' h q
    simp only [encodeList, Except.ok.injEq, Prod.mk.injEq] at h
    obtain ⟨h1, h2⟩ := h
    subst h1
    subst h2
    simp
  | cons b rest ih =>
    intro m ps m' h q
    obtain ⟨p, m1, ps', henc, hrest, hps⟩ := encodeList_cons_ok_inv h
    subst hps
    have hstep := encode_true_availCount henc q
    have hih := ih hrest q
    rw [List.count_cons]
    simp only [beq_iff_eq]
    omega

theorem encodeList_true_nodup {bs : List Byte} :
    ∀ {m : MapState} {ps : List Nat} {m' : MapState},
      (∀ q, availCount m q ≤ 1) →
      encodeList true m bs = .ok (ps, m') → ps.Nodup := by
  induction bs with
  | nil =>
    intro m ps m' _ h
    simp only [encodeList, Except.ok.injEq, Prod.mk.injEq] at h
    obtain ⟨h1, _⟩ := h
    subst h1
    exact List.nodup_nil
  | cons b rest ih =>
    intro m ps m' hinv h
    obtain ⟨p, m1, ps', henc, hrest, hps⟩ := encodeList_cons_ok_inv h
    subst hps
    have hinv1 : ∀ q, availCount m1 q ≤ 1 := by
      intro q
      have := encode_true_availCount henc q
      have := hinv q
      omega
    rw [List.nodup_cons]
    refine ⟨?_, ih hinv1 hrest⟩
    have hp := encode_true_availCount henc p
    rw [if_pos rfl] at hp
    have hm1p : availCount m1 p = 0 := by
      have := hinv p
      omega
    have hcnt := encodeList_true_counts hrest p
    rw [hm1p] at hcnt
    rw [← List.count_eq_zero]
    omega

theorem count_positions_le_one (content : List Byte) (b : Byte) (q : Nat) :
    (positions content b).count q ≤ 1 :=
  List.nodup_iff_count_le_one.mp (nodup_offPositions content 0 b) q

theorem count_positions_eq_zero {content : List Byte} {b : Byte} {q : Nat}
    (h : content.get? q ≠ some b) : (positions content b).count q = 0 := by
  rw [List.count_eq_zero]
  intro hmem
  exact h ((mem_positions content q b).mp hmem)

theorem availCount_init {content : List Byte} {rand : Byte → Nat → Nat}
    {m : MapState} (h : initMap rand content = .ok m) (q : Nat) :
    availCount m q ≤ 1 := by
  obtain ⟨hm, hall⟩ := initMap_ok_inv h
  subst hm
  have hseg : ∀ b : Byte,
      (availSeg (shuffleMap rand (buildMap content) b)).count q =
        (positions content b).count q := by
    intro b
    rw [shuffleMap_lookup, buildMap_lookup_of_mem (hall b)]
    show ((shuffleWith (rand b) (positions content b)).drop 0).count q = _
    rw [List.drop_zero]
    exact (shuffleWith_perm (rand b) (positions content b)).count_eq q
  unfold availCount
  rw [Finset.sum_congr rfl (fun b _ => hseg b)]
  cases hq : content.get? q with
  | none =>
    have : ∀ b : Byte, (positions content b).count q = 0 := by
      intro b
      exact count_positions_eq_zero (by rw [hq]; intro hc; cases hc)
    rw [Finset.sum_congr rfl (fun b _ => this b)]
    simp
  | some bq =>
    rw [Finset.sum_eq_single bq]
    · exact count_positions_le_one content bq q
    · intro b _ hb
      exact count_positions_eq_zero (by rw [hq]; intro hc; injection hc with hc'; exact hb hc'.symm)
    · intro hmem
      exact absurd (Finset.mem_univ bq) hmem

/-! ### `find_next_byte`: the streaming encoder's scan -/

theorem findFrom_some {map : List Byte} {target : Byte} :
    ∀ {pos p : Nat}, findFrom map target pos = some p →
      map.get? p = some target ∧ pos ≤ p := by
  have key : ∀ n pos p : Nat, map.length - pos = n →
      findFrom map target pos = some p →
      map.get? p = some target ∧ pos ≤ p := by
    intro n
    induction n using Nat.strong_induction_on with
    | _ n ih =>
      intro pos p hn h
      rw [findFrom] at h
      split at h
      · cases h
      · rename_i b hg
        split at h
        · rename_i hb
          injection h with h1
          subst h1
          subst hb
          exact ⟨hg, le_refl _⟩
        · have hlt : pos < map.length := (List.get?_eq_some.mp hg).1
          have := ih (map.length - (pos + 1)) (by omega) (pos + 1) p rfl h
          exact ⟨this.1, by omega⟩
  intro pos p h
  exact key (map.length - pos) pos p rfl h

theorem findFrom_none {map : List Byte} {target : Byte} :
    ∀ {pos : Nat}, findFrom map target pos = none →
      ∀ q, pos ≤ q → map.get? q ≠ some target := by
  have key : ∀ n pos : Nat, map.length - pos = n →
      findFrom map target pos = none →
      ∀ q, pos ≤ q → map.get? q ≠ some target := by
    intro n
    induction n using Nat.strong_induction_on with
    | _ n ih =>
      intro pos hn h q hq
      rw [findFrom] at h
      split at h
      · rename_i hg
        have hlen : map.length ≤ pos := List.get?_eq_none.mp hg
        rw [List.get?_eq_none.mpr (by omega)]
        intro hc
        cases hc
      · rename_i b hg
        split at h
        · cases h
        · rename_i hb
          have hlt : pos < map.length := (List.get?_eq_some.mp hg).1
          rcases Nat.eq_or_lt_of_le hq with heq | hlt'
          · subst heq
            rw [hg]
            intro hc
            injection hc with hc'
            exact hb hc'
          · exact ih (map.length - (pos + 1)) (by omega) (pos + 1) rfl h q hlt'
  intro pos h
  exact key (map.length - pos) pos rfl h

theorem wrapScan_ok_target {map : List Byte} {target : Byte} {index : Nat} :
    ∀ {pos p : Nat}, wrapScan map target index pos = .ok p →
      map.get? p = some target := by
  have key : ∀ n pos p : Nat, index - pos = n →
      wrapScan map target index pos = .ok p →
      map.get? p = some target := by
    intro n
    induction n using Nat.strong_induction_on with
    | _ n ih =>
      intro pos p hn h
      rw [wrapScan] at h
      split at h
      · cases h
      · rename_i b hg
        split at h
        · rename_i hb
          injection h with h1
          subst h1
          subst hb
          exact hg
        · split at h
          · rename_i hpi
            exact ih (index - (pos + 1)) (by omega) (pos + 1) p rfl h
          · cases h
  intro pos p h
  exact key (index - pos) pos p rfl h

theorem wrapScan_error_no_target {map : List Byte} {target : Byte}
    {index : Nat} :
    ∀ {pos : Nat} {e : MapErr}, wrapScan map target index pos = .error e →
      ∀ q, pos ≤ q → q ≤ index → map.get? q ≠ some target := by
  have key : ∀ n pos : Nat, ∀ e : MapErr, index - pos = n →
      wrapScan map target index pos = .error e →
      ∀ q, pos ≤ q → q ≤ index → map.get? q ≠ some target := by
    intro n
    induction n using Nat.strong_induction_on with
    | _ n ih =>
      intro pos e hn h q hq hqi
      rw [wrapScan] at h
      split at h
      · rename_i hg
        have hlen : map.length ≤ pos := List.get?_eq_none.mp hg
        rw [List.get?_eq_none.mpr (by omega)]
        intro hc
        cases hc
      · rename_i b hg
        split at h
        · cases h
        · rename_i hb
          split at h
          · rename_i hpi
            rcases Nat.eq_or_lt_of_le hq with heq | hlt'
            · subst heq
              rw [hg]
              intro hc
              injection hc with hc'
              exact hb hc'
            · exact ih (index - (pos + 1)) (by omega) (pos + 1) e rfl h q hlt' hqi
          · rename_i hpi
            have : q = pos := by omega
            subst this
            rw [hg]
            intro hc
            injection hc with hc'
            exact hb hc'
  intro pos e h
  exact key (index - pos) pos e rfl h

theorem wrapScan_error_gaps {map : List Byte} {target : Byte} {index : Nat} :
    ∀ {pos : Nat} {e : MapErr}, wrapScan map target index pos = .error e →
      e = .gaps := by
  have key : ∀ n pos : Nat, ∀ e : MapErr, index - pos = n →
      wrapScan map target index pos = .error e → e = .gaps := by
    intro n
    induction n using Nat.strong_induction_on with
    | _ n ih =>
      intro pos e hn h
      rw [wrapScan] at h
      split at h
      · injection h with h1
        exact h1.symm
      · rename_i b hg
        split at h
        · cases h
        · split at h
          · rename_i hpi
            exact ih (index - (pos + 1)) (by omega) (pos + 1) e rfl h
          · injection h with h1
            exact h1.symm
  intro pos e h
  exact key (index - pos) pos e rfl h

theorem find_next_byte_finds {map : List Byte} {target : Byte} (index : Nat)
    (hmem : target ∈ map) :
    ∃ p, find_next_byte map target index = .ok p ∧
      map.get? p = some target := by
  obtain ⟨q, hq⟩ := List.mem_iff_get?.mp hmem
  cases hf : findFrom map target index with
  | some p =>
    refine ⟨p, ?_, (findFrom_some hf).1⟩
    unfold find_next_byte
    rw [hf]
  | none =>
    cases hw : wrapScan map target index 0 with
    | ok p =>
      refine ⟨p, ?_, wrapScan_ok_target hw⟩
      unfold find_next_byte
      rw [hf, hw]
    | error e =>
      exfalso
      by_cases hqi : q ≤ index
      · exact wrapScan_error_no_target hw q (Nat.zero_le q) hqi hq
      · exact findFrom_none hf q (by omega) hq

theorem find_next_byte_absent {map : List Byte} {target : Byte} (index : Nat)
    (hmem : target ∉ map) :
    find_next_byte map target index = .error .gaps := by
  cases hf : findFrom map target index with
  | some p =>
    exact absurd (List.get?_mem (findFrom_some hf).1) hmem
  | none =>
    unfold find_next_byte
    rw [hf]
    cases hw : wrapScan map target index 0 with
    | ok p => exact absurd (List.get?_mem (wrapScan_ok_target hw)) hmem
    | error e => rw [wrapScan_error_gaps hw]

/-! ### Non-strict mode: totality after a successful construction -/

/-- Every key present with a non-empty position list — what `verify`
guarantees after a successful construction. -/
def NonEmptyAll (m : MapState) : Prop :=
  ∀ b : Byte, ∃ t, m b = some t ∧ t.list ≠ []

theorem shuffleMap_buildMap_lookup {content : List Byte} {b : Byte}
    (rand : Byte → Nat → Nat) (hmem : b ∈ content) :
    shuffleMap rand (buildMap content) b =
      some ⟨0, shuffleWith (rand b) (positions content b)⟩ := by
  rw [shuffleMap_lookup, buildMap_lookup_of_mem hmem]
  rfl

theorem nonEmptyAll_init {content : List Byte} {rand : Byte → Nat → Nat}
    {m : MapState} (h : initMap rand content = .ok m) : NonEmptyAll m := by
  intro b
  obtain ⟨hm, hall⟩ := initMap_ok_inv h
  subst hm
  refine ⟨_, shuffleMap_buildMap_lookup rand (hall b), ?_⟩
  intro hnil
  have hnil' : shuffleWith (rand b) (positions content b) = [] := hnil
  have hlen := (shuffleWith_perm (rand b) (positions content b)).length_eq
  rw [hnil', positions, length_offPositions] at hlen
  have hpos : 0 < content.count b := List.count_pos_iff_mem.mpr (hall b)
  simp at hlen
  omega

theorem encode_false_ok_of_nonempty {m : MapState} {b : Byte}
    {t : TrackedList} (h : m b = some t) (hne : t.list ≠ []) :
    ∃ p i, encode false m b = .ok (p, Function.update m b (some ⟨i, t.list⟩)) := by
  by_cases hlt : t.index < t.list.length
  · exact ⟨_, t.index + 1, encode_ok_of_lt false h hlt⟩
  · exact ⟨_, 1, encode_nonstrict_exhausted h (by omega) hne⟩

theorem encodeList_false_total :
    ∀ (bs : List Byte) (m : MapState), NonEmptyAll m →
      ∃ ps m', encodeList false m bs = .ok (ps, m') ∧ NonEmptyAll m' := by
  intro bs
  induction bs with
  | nil => intro m h; exact ⟨[], m, rfl, h⟩
  | cons b rest ih =>
    intro m h
    obtain ⟨t, hm, hne⟩ := h b
    obtain ⟨p, i, henc⟩ := encode_false_ok_of_nonempty hm hne
    have h1 : NonEmptyAll (Function.update m b (some ⟨i, t.list⟩)) := by
      intro b'
      by_cases hb : b' = b
      · subst hb
        exact ⟨⟨i, t.list⟩, Function.update_same _ _ _, hne⟩
      · obtain ⟨t', ht', hne'⟩ := h b'
        exact ⟨t', by rw [Function.update_noteq hb, ht'], hne'⟩
    obtain ⟨ps, m', hrest, h'⟩ := ih _ h1
    exact ⟨p :: ps, m', by simp only [encodeList, henc, hrest], h'⟩

/-! ### Shared concrete instances -/

theorem count_finRange (b : Byte) : (List.finRange 256).count b = 1 :=
  List.count_eq_one_of_mem (List.nodup_finRange 256) (List.mem_finRange b)

theorem count_le_finRange (plain : List Byte) (hp : plain.length ≤ 1) :
    ∀ b : Byte, plain.count b ≤ (List.finRange 256).count b := by
  intro b
  rw [count_finRange b]
  calc plain.count b ≤ plain.length := List.count_le_length b plain
    _ ≤ 1 := hp

/-- For a map with all bytes present but a single occurrence of `b`, the
constructed state has a singleton position list for `b`. -/
theorem singleton_key_state {content : List Byte} {rand : Byte → Nat → Nat}
    {m : MapState} (h : initMap rand content = .ok m) {b : Byte}
    (hone : content.count b = 1) :
    ∃ l : List Nat, m b = some ⟨0, l⟩ ∧ l.length = 1 ∧ l ≠ [] := by
  obtain ⟨hm, hall⟩ := initMap_ok_inv h
  subst hm
  refine ⟨_, shuffleMap_buildMap_lookup rand (hall b), ?_, ?_⟩
  · rw [(shuffleWith_perm (rand b) (positions content b)).length_eq,
      positions, length_offPositions]
    exact hone
  · intro hnil
    have hlen := (shuffleWith_perm (rand b) (positions content b)).length_eq
    rw [hnil, positions, length_offPositions] at hlen
    simp at hlen
    omega

/-! ### Concrete instances shared by the claim witnesses -/

theorem initMap_finRange :
    initMap (fun _ _ => 0) (List.finRange 256) =
      .ok (shuffleMap (fun _ _ => 0) (buildMap (List.finRange 256))) :=
  initMap_ok_of_all _ (fun b => List.mem_finRange b)

theorem buildMap_finRange_65 :
    buildMap (List.finRange 256) 65 = some ⟨0, [65]⟩ := by
  rw [buildMap_lookup_of_mem (List.mem_finRange _)]
  have h : positions (List.finRange 256) 65 = [65] := by decide
  rw [h]

/-! ### The claims -/

/-- C1: for every plaintext `plain` and every map content containing all 256
byte values with per-byte occurrence counts at least those of `plain`,
strict-mode in-memory encoding succeeds, and decoding the produced positions
against the same map (emitting the map byte at each position, in order)
yields exactly `plain`. -/
theorem strict_roundtrip (content plain : List Byte) (rand : Byte → Nat → Nat)
    (hall : ∀ b : Byte, b ∈ content)
    (hcnt : ∀ b : Byte, plain.count b ≤ content.count b) :
    ∃ m ps m', initMap rand content = .ok m ∧
      encodeList true m plain = .ok (ps, m') ∧
      runDecryptMem content ps = plain := by
  have hinit := initMap_ok_of_all rand hall
  obtain ⟨ps, m', henc, hdec, _⟩ := encodeList_roundtrip content plain _
    (goodFor_init hinit)
    (fun b => by rw [availLen_init hinit b]; exact hcnt b)
  exact ⟨_, ps, m', hinit, henc, hdec⟩

/-- Witness for C1 at a concrete input: the 256-byte identity map and the
plaintext `[65, 66]`. -/
theorem strict_roundtrip_witness :
    ∃ m ps m', initMap (fun _ _ => 0) (List.finRange 256) = .ok m ∧
      encodeList true m [65, 66] = .ok (ps, m') ∧
      runDecryptMem (List.finRange 256) ps = [65, 66] :=
  strict_roundtrip (List.finRange 256) [65, 66] (fun _ _ => 0)
    (fun b => List.mem_finRange b)
    (fun b => by
      rw [count_finRange b]
      exact List.nodup_iff_count_le_one.mp
        (by decide : ([65, 66] : List Byte).Nodup) b)

/-- C2, counterexample: decoding the out-of-range position 7 against the
3-byte map `[16, 32, 16]` raises no error in either decoder — the line
contributes no output byte and the loop silently continues with the next
line (there is no `CorruptCipherText` error anywhere in the code). -/
theorem decode_oob_counterexample :
    runDecryptMem [16, 32, 16] [7, 1] = [32] ∧
    runDecryptStream [16, 32, 16] [7, 1] = [32] ∧
    decodeMem [16, 32, 16] 7 = [] ∧
    decodeStream [16, 32, 16] 7 = [] := by
  refine ⟨?_, ?_, ?_, ?_⟩ <;> decide

/-- C2, amended: decoding an out-of-range position emits no output byte in
either decoder (the in-memory slice `map_bytes[index:index+1]` and the
streaming `seek`/`read(1)` are both empty) and no error is raised — the run
silently continues with the remaining ciphertext lines. -/
theorem decode_oob_silent (content : List Byte) (p : Nat) (rest : List Nat)
    (h : content.length ≤ p) :
    decodeMem content p = [] ∧ decodeStream content p = [] ∧
    runDecryptMem content (p :: rest) = runDecryptMem content rest ∧
    runDecryptStream content (p :: rest) = runDecryptStream content rest := by
  have h1 := decodeMem_of_oob h
  have h2 := @decodeStream_of_oob content p h
  refine ⟨h1, h2, ?_, ?_⟩
  · show decodeMem content p ++ runDecryptMem content rest = _
    rw [h1]
    rfl
  · show decodeStream content p ++ runDecryptStream content rest = _
    rw [h2]
    rfl

/-- Witness for the amended C2 at a concrete input. -/
theorem decode_oob_silent_witness :
    decodeMem [16, 32, 16] 7 = [] ∧ decodeStream [16, 32, 16] 7 = [] ∧
    runDecryptMem [16, 32, 16] (7 :: [1]) = runDecryptMem [16, 32, 16] [1] ∧
    runDecryptStream [16, 32, 16] (7 :: [1]) =
      runDecryptStream [16, 32, 16] [1] :=
  decode_oob_silent [16, 32, 16] 7 [1] (by decide)

/-- C3: `find_next_byte` (stream positioned at the starting index) returns a
position holding the target whenever the target occurs in the map; when the
target is absent it fails with the `Gaps` error after at most one full wrap
(the function is total, so it never loops); on map `[0x10, 0x20, 0x10]` it
returns position 2 for target `0x10` from index 1 (no wrap) and position 1
for target `0x20` from index 2 (one wrap). -/
theorem find_next_byte_spec (map : List Byte) (target : Byte) (index : Nat) :
    (target ∈ map →
      ∃ p, find_next_byte map target index = .ok p ∧
        map.get? p = some target) ∧
    (target ∉ map → find_next_byte map target index = .error .gaps) ∧
    find_next_byte [16, 32, 16] 16 1 = .ok 2 ∧
    find_next_byte [16, 32, 16] 32 2 = .ok 1 := by
  refine ⟨find_next_byte_finds index, find_next_byte_absent index, ?_, ?_⟩
  · simp [find_next_byte, findFrom, wrapScan]
  · simp [find_next_byte, findFrom, wrapScan]

/-- Witness for C3 at concrete inputs: target present, and target absent. -/
theorem find_next_byte_spec_witness :
    (∃ p, find_next_byte [16, 32, 16] 16 1 = .ok p ∧
      ([16, 32, 16] : List Byte).get? p = some 16) ∧
    find_next_byte [16, 32, 16] 48 1 = .error .gaps :=
  ⟨(find_next_byte_spec [16, 32, 16] 16 1).1 (by decide),
   (find_next_byte_spec [16, 32, 16] 48 1).2.1 (by decide)⟩

/-- C4: a strict-mode encode call on a byte whose cursor has passed the last
entry of its position list fails with the `MapTooSmall` error
(`"Map file not complex enough."`); in particular, for any map content with
all 256 values but a single occurrence of `0x41`, strict encoding of the
plaintext `"AA"` (`[65, 65]`) succeeds on the first byte and fails with
`MapTooSmall` on the second, so the whole encode run aborts with that
error. -/
theorem strict_exhaustion :
    (∀ (m : MapState) (b : Byte) (t : TrackedList), m b = some t →
      t.list.length ≤ t.index → encode true m b = .error .mapTooSmall) ∧
    ∀ (content : List Byte) (rand : Byte → Nat → Nat),
      (∀ b : Byte, b ∈ content) → content.count 65 = 1 →
      ∃ m p m1, initMap rand content = .ok m ∧
        encode true m 65 = .ok (p, m1) ∧
        encode true m1 65 = .error .mapTooSmall ∧
        encodeList true m [65, 65] = .error .mapTooSmall := by
  refine ⟨fun m b t h hge => encode_strict_exhausted h hge, ?_⟩
  intro content rand hall hone
  have hinit := initMap_ok_of_all rand hall
  obtain ⟨l, hm65, hlen, hne⟩ := singleton_key_state hinit hone
  have h1 : encode true (shuffleMap rand (buildMap content)) 65 =
      .ok (l.getD 0 0,
        Function.update (shuffleMap rand (buildMap content)) 65
          (some ⟨1, l⟩)) :=
    encode_ok_of_lt true hm65 (by show 0 < l.length; omega)
  have h2 : encode true
      (Function.update (shuffleMap rand (buildMap content)) 65 (some ⟨1, l⟩))
      65 = .error .mapTooSmall :=
    encode_strict_exhausted (Function.update_same _ _ _)
      (by show l.length ≤ 1; omega)
  refine ⟨_, l.getD 0 0, _, hinit, h1, h2, ?_⟩
  simp only [encodeList, h1, h2]

/-- Witness for C4: the general branch at an explicit exhausted state, and
the `"AA"` scenario on the 256-byte identity map. -/
theorem strict_exhaustion_witness :
    encode true (fun _ => some ⟨1, [0]⟩) 0 = .error .mapTooSmall ∧
    ∃ m p m1, initMap (fun _ _ => 0) (List.finRange 256) = .ok m ∧
      encode true m 65 = .ok (p, m1) ∧
      encode true m1 65 = .error .mapTooSmall ∧
      encodeList true m [65, 65] = .error .mapTooSmall :=
  ⟨strict_exhaustion.1 (fun _ => some ⟨1, [0]⟩) 0 ⟨1, [0]⟩ rfl (by decide),
   strict_exhaustion.2 (List.finRange 256) (fun _ _ => 0)
     (fun b => List.mem_finRange b) (count_finRange 65)⟩

/-- C5, counterexample: on the 256-byte identity map (a single occurrence of
every byte value) strict encoding of `"AA"` aborts on the second byte, yet
the run's output still holds the first ciphertext line `65` — it is not
discarded.  The main loop prints an error and calls `exit(1)`; nothing
deletes or truncates the output already written. -/
theorem strict_abort_keeps_output_counterexample :
    ∃ m, initMap (fun _ _ => 0) (List.finRange 256) = .ok m ∧
      runEncrypt true m [65, 65] = ([65], false) ∧ ([65] : List Nat) ≠ [] := by
  refine ⟨shuffleMap (fun _ _ => 0) (buildMap (List.finRange 256)),
    initMap_finRange, ?_, by decide⟩
  have hm65 : shuffleMap (fun _ _ => 0) (buildMap (List.finRange 256)) 65 =
      some ⟨0, [65]⟩ := by
    rw [shuffleMap_lookup, buildMap_finRange_65]
    rfl
  have h1 : encode true (shuffleMap (fun _ _ => 0)
        (buildMap (List.finRange 256))) 65 =
      .ok (65, Function.update
        (shuffleMap (fun _ _ => 0) (buildMap (List.finRange 256))) 65
        (some ⟨1, [65]⟩)) :=
    encode_ok_of_lt true hm65 (by decide)
  have h2 : encode true (Function.update
        (shuffleMap (fun _ _ => 0) (buildMap (List.finRange 256))) 65
        (some ⟨1, [65]⟩)) 65 = .error .mapTooSmall :=
    encode_strict_exhausted (Function.update_same _ _ _) (by decide)
  simp only [runEncrypt, h1, h2]

/-- C5, amended: when strict-mode encoding aborts with `MapTooSmall` partway
through the plaintext, the ciphertext lines already written remain in the
output — the run exits with status 1 but previously-written output is NOT
discarded; here the aborted `"AA"` run leaves exactly the first line. -/
theorem strict_abort_keeps_output (content : List Byte)
    (rand : Byte → Nat → Nat) (hall : ∀ b : Byte, b ∈ content)
    (hone : content.count 65 = 1) :
    ∃ m p, initMap rand content = .ok m ∧
      runEncrypt true m [65, 65] = ([p], false) ∧ ([p] : List Nat) ≠ [] := by
  have hinit := initMap_ok_of_all rand hall
  obtain ⟨l, hm65, hlen, hne⟩ := singleton_key_state hinit hone
  have h1 : encode true (shuffleMap rand (buildMap content)) 65 =
      .ok (l.getD 0 0,
        Function.update (shuffleMap rand (buildMap content)) 65
          (some ⟨1, l⟩)) :=
    encode_ok_of_lt true hm65 (by show 0 < l.length; omega)
  have h2 : encode true
      (Function.update (shuffleMap rand (buildMap content)) 65 (some ⟨1, l⟩))
      65 = .error .mapTooSmall :=
    encode_strict_exhausted (Function.update_same _ _ _)
      (by show l.length ≤ 1; omega)
  refine ⟨_, l.getD 0 0, hinit, ?_, by simp⟩
  simp only [runEncrypt, h1, h2]

/-- Witness for the amended C5 at the 256-byte identity map. -/
theorem strict_abort_keeps_output_witness :
    ∃ m p, initMap (fun _ _ => 0) (List.finRange 256) = .ok m ∧
      runEncrypt true m [65, 65] = ([p], false) ∧ ([p] : List Nat) ≠ [] :=
  strict_abort_keeps_output (List.finRange 256) (fun _ _ => 0)
    (fun b => List.mem_finRange b) (count_finRange 65)

/-- C6: in non-strict mode, an encode call on a byte whose position list is
exhausted resets the cursor to the start of the (already-shuffled) list and
returns the list's first position; for any map content with all 256 values
and a single occurrence of `0x41`, non-strict encoding of `"AA"` succeeds
with two ciphertext lines, the second reusing the first's position. -/
theorem nonstrict_reuse :
    (∀ (m : MapState) (b : Byte) (t : TrackedList), m b = some t →
      t.list ≠ [] → t.list.length ≤ t.index →
      encode false m b =
        .ok (t.list.getD 0 0, Function.update m b (some ⟨1, t.list⟩))) ∧
    ∀ (content : List Byte) (rand : Byte → Nat → Nat),
      (∀ b : Byte, b ∈ content) → content.count 65 = 1 →
      ∃ m p m2, initMap rand content = .ok m ∧
        encodeList false m [65, 65] = .ok ([p, p], m2) := by
  refine ⟨fun m b t h hne hge => encode_nonstrict_exhausted h hge hne, ?_⟩
  intro content rand hall hone
  have hinit := initMap_ok_of_all rand hall
  obtain ⟨l, hm65, hlen, hne⟩ := singleton_key_state hinit hone
  have h1 : encode false (shuffleMap rand (buildMap content)) 65 =
      .ok (l.getD 0 0,
        Function.update (shuffleMap rand (buildMap content)) 65
          (some ⟨1, l⟩)) :=
    encode_ok_of_lt false hm65 (by show 0 < l.length; omega)
  have h2 : encode false
      (Function.update (shuffleMap rand (buildMap content)) 65 (some ⟨1, l⟩))
      65 = .ok (l.getD 0 0,
        Function.update
          (Function.update (shuffleMap rand (buildMap content)) 65
            (some ⟨1, l⟩)) 65 (some ⟨1, l⟩)) :=
    encode_nonstrict_exhausted (Function.update_same _ _ _)
      (by show l.length ≤ 1; omega) hne
  refine ⟨_, l.getD 0 0,
    Function.update
      (Function.update (shuffleMap rand (buildMap content)) 65
        (some ⟨1, l⟩)) 65 (some ⟨1, l⟩),
    hinit, ?_⟩
  simp only [encodeList, h1, h2]

/-- Witness for C6: the general reset branch at an explicit exhausted state
(the reused position is the list head, 7), and the `"AA"` scenario on the
256-byte identity map. -/
theorem nonstrict_reuse_witness :
    (∃ st, encode false (fun _ => some ⟨1, [7]⟩) 0 = .ok (7, st)) ∧
    ∃ m p m2, initMap (fun _ _ => 0) (List.finRange 256) = .ok m ∧
      encodeList false m [65, 65] = .ok ([p, p], m2) :=
  ⟨⟨_, nonstrict_reuse.1 (fun _ => some ⟨1, [7]⟩) 0 ⟨1, [7]⟩ rfl
      (by decide) (by decide)⟩,
   nonstrict_reuse.2 (List.finRange 256) (fun _ _ => 0)
     (fun b => List.mem_finRange b) (count_finRange 65)⟩

/-- C7: constructing the `EncryptMap` fails with the `Gaps` error exactly
when some byte value is missing from the map content (and the shuffle step
is then never reached — in `initMap` the error branch returns before
`shuffleMap`); when all 256 values occur, construction succeeds and every
byte value has a non-empty position list. -/
theorem construction_gaps (content : List Byte) (rand : Byte → Nat → Nat) :
    ((∃ b : Byte, b ∉ content) → initMap rand content = .error .gaps) ∧
    ((∀ b : Byte, b ∈ content) →
      ∃ m, initMap rand content = .ok m ∧
        ∀ b : Byte, ∃ t, m b = some t ∧ t.list ≠ []) := by
  refine ⟨fun h => initMap_gaps_of_missing rand h, fun hall => ?_⟩
  exact ⟨_, initMap_ok_of_all rand hall,
    nonEmptyAll_init (initMap_ok_of_all rand hall)⟩

/-- Witness for C7: the empty map is rejected with `Gaps`; the 256-byte
identity map is accepted with non-empty position lists. -/
theorem construction_gaps_witness :
    initMap (fun _ _ => 0) [] = .error .gaps ∧
    ∃ m, initMap (fun _ _ => 0) (List.finRange 256) = .ok m ∧
      ∀ b : Byte, ∃ t, m b = some t ∧ t.list ≠ [] :=
  ⟨(construction_gaps [] (fun _ _ => 0)).1 ⟨0, by simp⟩,
   (construction_gaps (List.finRange 256) (fun _ _ => 0)).2
     (fun b => List.mem_finRange b)⟩

/-- C8: for every map content accepted by construction and every byte value,
the shuffle step preserves the exact multiset of positions in that value's
list — the shuffled list is a permutation of the scan's list (same length,
same per-position counts), with the cursor unchanged. -/
theorem shuffle_preserves_multiset (content : List Byte)
    (rand : Byte → Nat → Nat) (m : MapState)
    (h : initMap rand content = .ok m) (b : Byte) (t0 : TrackedList)
    (h0 : buildMap content b = some t0) :
    ∃ t, m b = some t ∧ t.index = t0.index ∧ t.list.Perm t0.list ∧
      ∀ q, t.list.count q = t0.list.count q := by
  obtain ⟨hm, _⟩ := initMap_ok_inv h
  subst hm
  rw [shuffleMap_lookup, h0]
  exact ⟨⟨t0.index, shuffleWith (rand b) t0.list⟩, rfl, rfl,
    shuffleWith_perm (rand b) t0.list,
    fun q => (shuffleWith_perm (rand b) t0.list).count_eq q⟩

/-- Witness for C8 on the 256-byte identity map at key `0x41`, whose scan
list is `[65]`. -/
theorem shuffle_preserves_multiset_witness :
    ∃ t, shuffleMap (fun _ _ => 0) (buildMap (List.finRange 256)) 65 =
        some t ∧
      t.index = (⟨0, [65]⟩ : TrackedList).index ∧
      t.list.Perm (⟨0, [65]⟩ : TrackedList).list ∧
      ∀ q, t.list.count q = (⟨0, [65]⟩ : TrackedList).list.count q :=
  shuffle_preserves_multiset (List.finRange 256) (fun _ _ => 0) _
    initMap_finRange 65 ⟨0, [65]⟩ buildMap_finRange_65

/-- C9: strict-mode no-reuse — every successful sequence of strict in-memory
encode calls on a freshly constructed `EncryptMap` returns pairwise distinct
positions (the produced ciphertext lines contain no duplicate). -/
theorem strict_no_reuse (content : List Byte) (rand : Byte → Nat → Nat)
    (m : MapState) (bs : List Byte) (ps : List Nat) (m' : MapState)
    (hinit : initMap rand content = .ok m)
    (henc : encodeList true m bs = .ok (ps, m')) : ps.Nodup :=
  encodeList_true_nodup (availCount_init hinit) henc

/-- Witness for C9: a concrete successful strict run on the 256-byte
identity map whose output is duplicate-free. -/
theorem strict_no_reuse_witness :
    ∃ ps m', encodeList true
        (shuffleMap (fun _ _ => 0) (buildMap (List.finRange 256)))
        [65, 66] = .ok (ps, m') ∧ ps.Nodup := by
  obtain ⟨ps, m', henc, _, _⟩ :=
    encodeList_roundtrip (List.finRange 256) [65, 66] _
      (goodFor_init initMap_finRange)
      (fun b => by
        rw [availLen_init initMap_finRange b, count_finRange b]
        exact List.nodup_iff_count_le_one.mp
          (by decide : ([65, 66] : List Byte).Nodup) b)
  exact ⟨ps, m', henc,
    strict_no_reuse (List.finRange 256) (fun _ _ => 0) _ [65, 66] ps m'
      initMap_finRange henc⟩

/-- C10: after a successful construction (all 256 keys present, each with a
non-empty position list), non-strict encoding is total — every sequence of
encode calls, with any byte values and any number of repetitions, returns
positions and never raises: the missing-key branch is unreachable and the
reset-then-next path always succeeds. -/
theorem nonstrict_never_fails (content : List Byte)
    (rand : Byte → Nat → Nat) (m : MapState) (bs : List Byte)
    (hinit : initMap rand content = .ok m) :
    ∃ ps m', encodeList false m bs = .ok (ps, m') := by
  obtain ⟨ps, m', henc, _⟩ :=
    encodeList_false_total bs m (nonEmptyAll_init hinit)
  exact ⟨ps, m', henc⟩

/-- Witness for C10: the identity map has one position per byte, yet
non-strict encoding of `[65, 65, 65]` (three reuses) still succeeds. -/
theorem nonstrict_never_fails_witness :
    ∃ ps m', encodeList false
        (shuffleMap (fun _ _ => 0) (buildMap (List.finRange 256)))
        [65, 65, 65] = .ok (ps, m') :=
  nonstrict_never_fails (List.finRange 256) (fun _ _ => 0) _ [65, 65, 65]
    initMap_finRange
